import Mathlib

/-!
# please_go: import resolution, rule synthesis and the C compile stage

A shallow embedding of `tools/please_go/generate/generate.go` and of
`Toolchain.CCompile` from `tools/please_go/install/toolchain/toolchain.go`.

Go strings are sequences of bytes; they are embedded as lists of characters,
one character per byte.  Go maps are embedded as association lists in which
the most recent binding of a key is the one that is found.
-/

namespace PleaseGo

/-- A Go string: a finite sequence of characters. -/
abbrev GoString := List Char

/-! ## The Go standard library functions the program calls -/

/-- Go `strings.HasPrefix(s, pre)`. -/
def strings.HasPrefix (s pre : GoString) : Bool :=
  pre.isPrefixOf s

/-- Go `strings.HasSuffix(s, suf)`. -/
def strings.HasSuffix (s suf : GoString) : Bool :=
  suf.isSuffixOf s

/-- Go `strings.TrimPrefix(s, pre)`: `s` without the leading `pre`, or `s`
itself when it does not start with `pre`. -/
def strings.TrimPrefix (s pre : GoString) : GoString :=
  if strings.HasPrefix s pre then s.drop pre.length else s

/-- Go `strings.TrimSuffix(s, suf)`: `s` without the trailing `suf`, or `s`
itself when it does not end with `suf`. -/
def strings.TrimSuffix (s suf : GoString) : GoString :=
  if strings.HasSuffix s suf then s.take (s.length - suf.length) else s

/-- Go `strings.Join(elems, sep)`. -/
def strings.Join (elems : List GoString) (sep : GoString) : GoString :=
  sep.intercalate elems

/-- The left-to-right scan of `strings.ReplaceAll` for a non-empty `old`; the
first argument bounds the number of steps left. -/
def strings.replaceScan (old new : GoString) : Nat → GoString → GoString
  | 0, rest => rest
  | _ + 1, [] => []
  | n + 1, c :: cs =>
    if old.isPrefixOf (c :: cs) then new ++ strings.replaceScan old new n ((c :: cs).drop old.length)
    else c :: strings.replaceScan old new n cs

/-- Go `strings.ReplaceAll(s, old, new)`: scanning from the left, every
non-overlapping occurrence of `old` is replaced by `new`; an empty `old`
matches before every character and at the end. -/
def strings.ReplaceAll (s old new : GoString) : GoString :=
  if old = [] then new ++ s.flatMap (fun c => c :: new)
  else strings.replaceScan old new s.length s

/-- The path separator of `path/filepath` on the platforms the tool runs on. -/
def filepath.Separator : Char := '/'

/-- A path without its trailing separators (the first loop of `filepath.Base`). -/
def filepath.stripTrailingSeparators (path : GoString) : GoString :=
  (path.reverse.dropWhile (fun c => c = filepath.Separator)).reverse

/-- The characters after the last separator of a path (the second loop of
`filepath.Base`). -/
def filepath.lastElement (path : GoString) : GoString :=
  (path.reverse.takeWhile (fun c => c ≠ filepath.Separator)).reverse

/-- Go `filepath.Base(path)`: the last element of the path, trailing separators
removed first; `.` for the empty path and `/` for a path of separators only. -/
def filepath.Base (path : GoString) : GoString :=
  if path = [] then ['.']
  else
    let last := filepath.lastElement (filepath.stripTrailingSeparators path)
    if last = [] then [filepath.Separator] else last

/-- The backwards scan of `filepath.Ext` over the reversed path: it stops at
the first separator (no extension) or at the first dot (the extension starts
there); `acc` holds the characters already passed, in path order. -/
def filepath.extScan : List Char → GoString → GoString
  | [], _ => []
  | c :: rest, acc =>
    if c = filepath.Separator then []
    else if c = '.' then '.' :: acc
    else filepath.extScan rest (c :: acc)

/-- Go `filepath.Ext(path)`: the suffix beginning at the final dot in the final
element of the path, empty if there is no dot. -/
def filepath.Ext (path : GoString) : GoString :=
  filepath.extScan path.reverse []

/-- A path cut at every separator. -/
def filepath.splitElements : GoString → List GoString
  | [] => [[]]
  | c :: cs =>
    if c = filepath.Separator then [] :: filepath.splitElements cs
    else
      match filepath.splitElements cs with
      | [] => [[c]]
      | e :: es => (c :: e) :: es

/-- One element of the path in `filepath.Clean`, applied to the elements kept
so far (last kept element first): empty and `.` elements are dropped, `..`
removes the last kept element when there is one to remove, is dropped at the
root of a rooted path and is kept otherwise, and any other element is kept. -/
def filepath.cleanStep (rooted : Bool) (kept : List GoString) (e : GoString) : List GoString :=
  if e = [] ∨ e = ['.'] then kept
  else if e = ['.', '.'] then
    match kept with
    | [] => if rooted then [] else [e]
    | top :: below => if top = ['.', '.'] then (if rooted then kept else e :: kept) else below
  else e :: kept

/-- Go `filepath.Clean(path)`, element by element: the shortest path equivalent
to `path` by purely lexical processing. -/
def filepath.Clean (path : GoString) : GoString :=
  if path = [] then ['.']
  else
    let rooted : Bool := path.head? = some filepath.Separator
    let kept := (filepath.splitElements path).foldl (filepath.cleanStep rooted) []
    let body := strings.Join kept.reverse [filepath.Separator]
    if rooted then filepath.Separator :: body
    else if kept = [] then ['.'] else body

/-- Go `filepath.Join(elem...)`: the elements from the first non-empty one on,
joined by separators and cleaned; empty when every element is empty. -/
def filepath.Join (elem : List GoString) : GoString :=
  match elem.dropWhile (fun e => e = []) with
  | [] => []
  | rest => filepath.Clean (strings.Join rest [filepath.Separator])

/-! ## `generate.go`: the generator state -/

/-- A Go `map[string]string` as an association list; the binding nearest the
head is the current one. -/
abbrev GoMap := List (GoString × GoString)

/-- The two-valued map read `v, ok := m[k]`: `none` when `k` is not a key. -/
def GoMap.lookup : GoMap → GoString → Option GoString
  | [], _ => none
  | (k, v) :: m, key => if key = k then some v else GoMap.lookup m key

/-- The map write `m[k] = v`. -/
def GoMap.set (m : GoMap) (k v : GoString) : GoMap :=
  (k, v) :: m

/-- The `Generate` struct (the build context is left out: it only matters to
the directory reads, which are not embedded). -/
structure Generate where
  moduleName : GoString
  srcRoot : GoString
  buildFileName : GoString
  deps : List GoString
  pluginTarget : GoString
  replace : GoMap
  knownImportTargets : GoMap
deriving DecidableEq, Repr

/-- The `rule` struct. -/
structure rule where
  name : GoString
  kind : GoString
  srcs : List GoString
  cgoSrcs : List GoString
  compilerFlags : List GoString
  linkerFlags : List GoString
  pkgConfigs : List GoString
  asmFiles : List GoString
  hdrs : List GoString
  deps : List GoString
  embedPatterns : List GoString
deriving DecidableEq, Repr

/-- Go `New(srcRoot, requirements)`. -/
def New (srcRoot : GoString) (requirements : List GoString) : Generate :=
  { moduleName := [], srcRoot := srcRoot, buildFileName := "BUILD".toList,
    deps := requirements, pluginTarget := [], replace := [], knownImportTargets := [] }

/-- The directives of a `go.mod` file that the generator is concerned with:
the path of the `module` directive, the module paths of the `require`
directives and the old and new paths of the `replace` directives, each in file
order. -/
structure GoMod where
  Module : GoString
  Require : List GoString
  Replace : List (GoString × GoString)
deriving DecidableEq, Repr

/-- The fields of a parsed `modfile.File` that `readGoMod` reads. -/
structure ModFile where
  Module : GoString
  Require : List GoString
  Replace : List (GoString × GoString)
deriving DecidableEq, Repr

/-- The `modfile.ParseLax` of `golang.org/x/mod`, on a well-formed file with a
`module` directive: the lax parser is the one meant for the `go.mod` files of
dependencies and keeps the `module` and `require` directives only; `replace`
directives, which count for the main module alone, are ignored. -/
def modfile.ParseLax (file : GoMod) : ModFile :=
  { Module := file.Module, Require := file.Require, Replace := [] }

/-- Go `Generate.readGoMod`, for a manifest that is read and parsed without
error: the required modules are appended to `deps`, then the module's own
path; the replace map is rebuilt from the replace directives of the parsed
file. -/
def Generate.readGoMod (g : Generate) (file : GoMod) : Generate :=
  let modFile := modfile.ParseLax file
  let deps := modFile.Require.foldl (fun deps req => deps ++ [req]) g.deps
  { g with
    deps := deps ++ [modFile.Module]
    moduleName := modFile.Module
    replace := modFile.Replace.foldl (fun m r => GoMap.set m r.1 r.2) [] }

/-- Go `Generate.pkgDir`. -/
def Generate.pkgDir (g : Generate) (target : GoString) : GoString :=
  filepath.Join [g.srcRoot, strings.TrimPrefix target g.moduleName]

/-- The directory `Generate.importDir` hands to `build.Context.ImportDir`,
which is the `Dir` of the package it returns; `tmpDir` is the value of the
`TMP_DIR` environment variable. -/
def Generate.importDirPath (g : Generate) (tmpDir target : GoString) : GoString :=
  filepath.Join [tmpDir, g.pkgDir target]

/-! ## `generate.go`: import resolution -/

/-- The module loop of `depTarget`: over the modules in list order, a module
that is a prefix of the import path replaces the current choice when it is
strictly longer; the choice starts out empty. -/
def Generate.longestModule (importPath : GoString) (deps : List GoString) : GoString :=
  deps.foldl
    (fun module mod =>
      if strings.HasPrefix importPath mod then
        if module.length < mod.length then mod else module
      else module)
    []

/-- The target reference `depTarget` composes once a module has been chosen. -/
def Generate.composeTarget (importPath module : GoString) : GoString :=
  let subrepoName := strings.ReplaceAll module "/".toList "_".toList
  let packageName := strings.TrimPrefix importPath module
  let packageName := strings.TrimPrefix packageName "/".toList
  if packageName = [] then
    "///third_party/go/".toList ++ subrepoName ++ "//:".toList ++ filepath.Base module
  else
    "///third_party/go/".toList ++ subrepoName ++ "//".toList ++ packageName ++ ":".toList
      ++ filepath.Base packageName

/-- Go `Generate.depTarget`.  The replace branch calls `depTarget` again and
nothing bounds the chain of replacements, so the embedding counts calls: every
call uses one unit of `fuel`, and `none` means the fuel ran out.  A call that
returns gives the target and the generator with its updated cache. -/
def Generate.depTarget : Nat → Generate → GoString → Option (GoString × Generate)
  | 0, _, _ => none
  | fuel + 1, g, importPath =>
    match g.knownImportTargets.lookup importPath with
    | some target => some (target, g)
    | none =>
      match g.replace.lookup importPath with
      | some replacement =>
        match Generate.depTarget fuel g replacement with
        | none => none
        | some (target, g1) =>
          some (target, { g1 with knownImportTargets := g1.knownImportTargets.set importPath target })
      | none =>
        let module := Generate.longestModule importPath g.deps
        if module = [] then some ([], g)
        else
          let target := Generate.composeTarget importPath module
          some (target, { g with knownImportTargets := g.knownImportTargets.set importPath target })

/-- Go `Generate.depTargets`: the non-empty targets of the imports, in order. -/
def Generate.depTargets (fuel : Nat) : Generate → List GoString → Option (List GoString × Generate)
  | g, [] => some ([], g)
  | g, path :: imports =>
    match Generate.depTarget fuel g path with
    | none => none
    | some (target, g1) =>
      match Generate.depTargets fuel g1 imports with
      | none => none
      | some (deps, g2) => some (if target = [] then deps else target :: deps, g2)

/-! ## `generate.go`: rule synthesis -/

/-- The fields of `go/build`'s `Package` that the generator reads. -/
structure Package where
  Dir : GoString
  Name : GoString
  GoFiles : List GoString
  CgoFiles : List GoString
  CgoCFLAGS : List GoString
  CgoLDFLAGS : List GoString
  CgoPkgConfig : List GoString
  SFiles : List GoString
  HFiles : List GoString
  Imports : List GoString
  EmbedPatterns : List GoString
deriving DecidableEq, Repr

/-- Go `(*build.Package).IsCommand`: the package is named `main`. -/
def Package.IsCommand (pkg : Package) : Bool :=
  pkg.Name = "main".toList

/-- Go `packageKind`. -/
def packageKind (pkg : Package) : GoString :=
  let cgo : Bool := 0 < pkg.CgoFiles.length
  if pkg.IsCommand && cgo then "cgo_binary".toList
  else if pkg.IsCommand then "go_binary".toList
  else if cgo then "cgo_library".toList
  else "go_library".toList

/-- How a call ends: it returns, it panics, or the embedding ran out of fuel
before it did either. -/
inductive Outcome (α : Type) where
  | done (a : α)
  | panicked (msg : GoString)
  | outOfFuel
deriving DecidableEq, Repr

/-- The name `newRule` gives the rule of a package (before the check that
panics on `.`). -/
def Generate.ruleName (g : Generate) (pkg : Package) : GoString :=
  let name := filepath.Base pkg.Dir
  if strings.HasSuffix pkg.Dir g.srcRoot ∨ name = [] then filepath.Base g.moduleName else name

/-- Go `Generate.newRule`: the rules of a package and the generator with the
cache as the resolution of the imports left it. -/
def Generate.newRule (fuel : Nat) (g : Generate) (pkg : Package) : Outcome (List rule × Generate) :=
  let name := g.ruleName pkg
  if name = ".".toList then
    Outcome.panicked (g.moduleName ++ " ".toList ++ pkg.Dir)
  else if 0 < pkg.GoFiles.length ∨ 0 < pkg.CgoFiles.length then
    match g.depTargets fuel pkg.Imports with
    | none => Outcome.outOfFuel
    | some (deps, g1) =>
      Outcome.done
        ([{ name := name
            kind := packageKind pkg
            srcs := pkg.GoFiles
            cgoSrcs := pkg.CgoFiles
            compilerFlags := pkg.CgoCFLAGS
            linkerFlags := pkg.CgoLDFLAGS
            pkgConfigs := pkg.CgoPkgConfig
            asmFiles := pkg.SFiles
            hdrs := pkg.HFiles
            deps := deps
            embedPatterns := pkg.EmbedPatterns }], g1)
  else Outcome.done ([], g)

/-! ## `generate.go`: the build file -/

/-- The expressions of the build file that `writeFile` builds. -/
inductive Expr where
  | StringExpr (Value : GoString)
  | ListExpr (elems : List GoString)
  | GlobCall (patterns : List GoString)
deriving DecidableEq, Repr

/-- Go `NewStringExpr`. -/
def NewStringExpr (s : GoString) : Expr :=
  Expr.StringExpr s

/-- Go `NewStringList`: a list expression of one string expression per element. -/
def NewStringList (ss : List GoString) : Expr :=
  Expr.ListExpr ss

/-- A rule call of the build file: its kind and its attributes in order. -/
structure BuildRule where
  kind : GoString
  attrs : List (GoString × Expr)
deriving DecidableEq, Repr

/-- The attribute write of the build-file library: the value of an attribute
that is already there is replaced, a new attribute is added at the end. -/
def setAttrList : List (GoString × Expr) → GoString → Expr → List (GoString × Expr)
  | [], key, val => [(key, val)]
  | (k, v) :: attrs, key, val =>
    if k = key then (key, val) :: attrs else (k, v) :: setAttrList attrs key val

/-- The `Rule.SetAttr` of the build-file library. -/
def BuildRule.SetAttr (r : BuildRule) (key : GoString) (val : Expr) : BuildRule :=
  { r with attrs := setAttrList r.attrs key val }

/-- The first value bound to a key in an attribute list. -/
def attrLookup : List (GoString × Expr) → GoString → Option Expr
  | [], _ => none
  | (k, v) :: attrs, key => if k = key then some v else attrLookup attrs key

/-- The `Rule.Attr` of the build-file library: the value of an attribute, if
the rule has it. -/
def BuildRule.Attr (r : BuildRule) (key : GoString) : Option Expr :=
  attrLookup r.attrs key

/-- Go `NewRule`: a rule call of the given kind with its `name` attribute. -/
def NewRule (kind name : GoString) : BuildRule :=
  BuildRule.SetAttr { kind := kind, attrs := [] } "name".toList (NewStringExpr name)

/-- The body of the loop of `Generate.writeFile`: the rule call written for one
rule. -/
def Generate.writeRule (rule : rule) : BuildRule :=
  let r := NewRule rule.kind rule.name
  let r :=
    if 0 < rule.cgoSrcs.length then
      (r.SetAttr "srcs".toList (NewStringList rule.cgoSrcs)).SetAttr "go_srcs".toList
        (NewStringList rule.srcs)
    else r.SetAttr "srcs".toList (NewStringList rule.srcs)
  let r := if 0 < rule.deps.length then r.SetAttr "deps".toList (NewStringList rule.deps) else r
  let r :=
    if 0 < rule.compilerFlags.length then
      r.SetAttr "pkg_config".toList (NewStringList rule.pkgConfigs)
    else r
  let r :=
    if 0 < rule.compilerFlags.length then
      r.SetAttr "compiler_flags".toList (NewStringList rule.compilerFlags)
    else r
  let r :=
    if 0 < rule.linkerFlags.length then
      r.SetAttr "linker_flags".toList (NewStringList rule.linkerFlags)
    else r
  let r := if 0 < rule.hdrs.length then r.SetAttr "hdrs".toList (NewStringList rule.hdrs) else r
  let r :=
    if 0 < rule.asmFiles.length then r.SetAttr "asm_srcs".toList (NewStringList rule.asmFiles)
    else r
  let r := if 0 < rule.deps.length then r.SetAttr "deps".toList (NewStringList rule.deps) else r
  let r :=
    if 0 < rule.embedPatterns.length then
      r.SetAttr "resources".toList (Expr.GlobCall rule.embedPatterns)
    else r
  r.SetAttr "visibility".toList (NewStringList ["PUBLIC".toList])

/-- The statements `Generate.writeFile` formats into the build file: the
`subinclude` of the Go build definitions, then one rule call per rule. -/
structure BuildFile where
  subinclude : GoString
  rules : List BuildRule
deriving DecidableEq, Repr

/-- Go `Generate.writeFile`, up to the formatting and the write of the file. -/
def Generate.writeFile (rules : List rule) : BuildFile :=
  { subinclude := "///go//build_defs:go".toList, rules := rules.map Generate.writeRule }

/-! ## `toolchain.go`: the C compile stage -/

/-- The `Toolchain` struct, without its executor. -/
structure Toolchain where
  CcTool : GoString
  GoTool : GoString
  PkgConfigTool : GoString
deriving DecidableEq, Repr

/-- One call of the executor: the format string and its arguments, and the
error it returned (`none` for a nil error). -/
structure Invocation (ε : Type) where
  format : GoString
  args : List GoString
  err : Option ε

/-- The command executor `Toolchain.Exec`, which is not part of the embedded
files: `Run` takes a format string and its arguments and returns an error or
nil; what it does may depend on a state `σ` of the outside world, which it may
change. -/
structure Executor (σ ε : Type) where
  Run : GoString → List GoString → σ → Option ε × σ

/-- The outside world together with the record of the executor calls made so
far, oldest first. -/
structure World (σ ε : Type) where
  state : σ
  log : List (Invocation ε)

/-- A call of `Exec.Run`, recorded in the log. -/
def Executor.RunLogged {σ ε : Type} (ex : Executor σ ε) (format : GoString) (args : List GoString)
    (w : World σ ε) : Option ε × World σ ε :=
  let r := ex.Run format args w.state
  (r.1, { state := r.2, log := w.log ++ [{ format := format, args := args, err := r.1 }] })

/-- The format string of the compiler command of `CCompile`. -/
def Toolchain.ccFormat : GoString :=
  "(cd %s; %s -Wno-error -Wno-unused-parameter -c %s -I . -o %s %s)".toList

/-- The `baseObjFile` of `CCompile`: the base name of the source, its extension
replaced by `.o`. -/
def Toolchain.baseObjFile (ccFile : GoString) : GoString :=
  strings.TrimSuffix (filepath.Base ccFile) (filepath.Ext ccFile) ++ ".o".toList

/-- The object file `CCompile` derives for a source: the object directory
joined with `baseObjFile`. -/
def Toolchain.objFile (objectDir ccFile : GoString) : GoString :=
  filepath.Join [objectDir, Toolchain.baseObjFile ccFile]

/-- The arguments of the compiler command of `CCompile` for one source. -/
def Toolchain.ccArgs (tc : Toolchain) (sourceDir objectDir : GoString) (ccFlags : List GoString)
    (ccFile : GoString) : List GoString :=
  [sourceDir, tc.CcTool, strings.Join ccFlags " ".toList, Toolchain.objFile objectDir ccFile, ccFile]

/-- The loop of `Toolchain.CCompile` over the sources still to compile;
`objFiles` holds the object files of the sources already compiled. -/
def Toolchain.ccompileLoop {σ ε : Type} (tc : Toolchain) (ex : Executor σ ε)
    (sourceDir objectDir : GoString) (ccFlags : List GoString) :
    List GoString → List GoString → World σ ε → Except ε (List GoString) × World σ ε
  | [], objFiles, w => (Except.ok objFiles, w)
  | ccFile :: rest, objFiles, w =>
    match ex.RunLogged Toolchain.ccFormat (tc.ccArgs sourceDir objectDir ccFlags ccFile) w with
    | (some err, w1) => (Except.error err, w1)
    | (none, w1) =>
      Toolchain.ccompileLoop tc ex sourceDir objectDir ccFlags rest
        (objFiles ++ [Toolchain.objFile objectDir ccFile]) w1

/-- Go `Toolchain.CCompile`. -/
def Toolchain.CCompile {σ ε : Type} (tc : Toolchain) (ex : Executor σ ε)
    (sourceDir objectDir : GoString) (ccFiles ccFlags : List GoString) (w : World σ ε) :
    Except ε (List GoString) × World σ ε :=
  Toolchain.ccompileLoop tc ex sourceDir objectDir ccFlags ccFiles [] w


/-! ## The inputs of the worked examples -/

/-- The generator of the specification's example, after `readGoMod`: module
`example.com/app` requiring `example.com/lib`, no replace directive. -/
def exampleGenerate : Generate :=
  (New ".".toList []).readGoMod
    { Module := "example.com/app".toList, Require := ["example.com/lib".toList], Replace := [] }

/-- A target reference is subrepo-qualified when it starts with
`///third_party/`. -/
def isSubrepoQualified (target : GoString) : Bool :=
  strings.HasPrefix target "///third_party/".toList

/-- A command package in `src/cmd` with one Go file that imports `fmt` and
`example.com/app/lib`. -/
def importingPackage : Package :=
  { Dir := "src/cmd".toList, Name := "main".toList, GoFiles := ["main.go".toList],
    CgoFiles := [], CgoCFLAGS := [], CgoLDFLAGS := [], CgoPkgConfig := [], SFiles := [],
    HFiles := [], Imports := ["fmt".toList, "example.com/app/lib".toList], EmbedPatterns := [] }

/-- A package with one Go file and nothing else, in directory `dir`. -/
def goPackage (dir name : GoString) : Package :=
  { Dir := dir, Name := name, GoFiles := ["a.go".toList], CgoFiles := [], CgoCFLAGS := [],
    CgoLDFLAGS := [], CgoPkgConfig := [], SFiles := [], HFiles := [], Imports := [],
    EmbedPatterns := [] }

/-- A generator for the source root `src` of module `example.com/app`. -/
def srcGenerate : Generate :=
  (New "src".toList []).readGoMod
    { Module := "example.com/app".toList, Require := [], Replace := [] }

/-- A cgo rule that names a pkg-config package and has no compiler flags. -/
def pkgConfigRule : rule :=
  { name := "lib".toList, kind := "cgo_library".toList, srcs := [], cgoSrcs := ["lib.go".toList],
    compilerFlags := [], linkerFlags := [], pkgConfigs := ["libfoo".toList], asmFiles := [],
    hdrs := [], deps := [], embedPatterns := [] }

/-- A generator of module `example.com/app` for the source root written `./`. -/
def dotSlashGenerate : Generate :=
  (New "./".toList []).readGoMod
    { Module := "example.com/app".toList, Require := [], Replace := [] }

/-! ## Notions used to state the properties -/

/-- A string without one leading `/`, if it has one. -/
def dropLeadingSlash : GoString → GoString
  | '/' :: rest => rest
  | rest => rest

/-- The import path without the module prefix and without one leading `/`,
in the words of the specification. -/
def claimedSubPath (m p : GoString) : GoString :=
  dropLeadingSlash (p.drop m.length)

/-- The target reference the specification describes for the import path `p`
of the module `m`: `///third_party/go/`, the module with every `/` replaced by
`_`, `//`, the sub-path, `:` and the base name of the sub-path, or of the
module when the sub-path is empty. -/
def claimedTarget (m p : GoString) : GoString :=
  let flat := m.map (fun c => if c = '/' then '_' else c)
  let sub := claimedSubPath m p
  if sub = [] then "///third_party/go/".toList ++ flat ++ "//:".toList ++ filepath.Base m
  else "///third_party/go/".toList ++ flat ++ "//".toList ++ sub ++ ":".toList ++ filepath.Base sub

/-- The target `depTarget` computes for an import path that is neither cached
nor replaced. -/
def Generate.directTarget (deps : List GoString) (importPath : GoString) : GoString :=
  let module := Generate.longestModule importPath deps
  if module = [] then [] else Generate.composeTarget importPath module

/-- The resolution of an import path without the cache: the replacements are
followed, at most `n - 1` of them, and the path they end in is resolved against
the module list. -/
def Generate.resolve (deps : List GoString) (replace : GoMap) : Nat → GoString → Option GoString
  | 0, _ => none
  | n + 1, importPath =>
    match replace.lookup importPath with
    | some replacement => Generate.resolve deps replace n replacement
    | none => some (Generate.directTarget deps importPath)

/-- Every cached target is the cache-free resolution of its import path. -/
def Generate.CacheSound (g : Generate) : Prop :=
  ∀ k v, g.knownImportTargets.lookup k = some v → ∃ n, Generate.resolve g.deps g.replace n k = some v

/-- The second generator is what the first has become after finitely many
calls of `depTarget` that returned. -/
inductive Generate.Reachable : Generate → Generate → Prop where
  | start (g : Generate) : Generate.Reachable g g
  | call {g0 g g1 : Generate} (fuel : Nat) (importPath target : GoString) :
      Generate.Reachable g0 g → Generate.depTarget fuel g importPath = some (target, g1) →
      Generate.Reachable g0 g1

/-- The record of the compiler call of `CCompile` for one source, with the
error the call returned. -/
def Toolchain.ccInvocation {ε : Type} (tc : Toolchain) (sourceDir objectDir : GoString)
    (ccFlags : List GoString) (err : Option ε) (ccFile : GoString) : Invocation ε :=
  { format := Toolchain.ccFormat, args := tc.ccArgs sourceDir objectDir ccFlags ccFile, err := err }

/-- The outside world after the executor has run the compiler command of
`CCompile` for the given sources, one after the other, starting in the world
`s`. -/
def Toolchain.stateAfter {σ ε : Type} (tc : Toolchain) (ex : Executor σ ε)
    (sourceDir objectDir : GoString) (ccFlags : List GoString) : List GoString → σ → σ
  | [], s => s
  | f :: rest, s =>
    Toolchain.stateAfter tc ex sourceDir objectDir ccFlags rest
      (ex.Run Toolchain.ccFormat (tc.ccArgs sourceDir objectDir ccFlags f) s).2

/-- What the executor answers to the compiler command for the source `f` when
it has run the commands for the sources `before` first, starting in the world
`s`: an error, or `none`. -/
def Toolchain.ccAnswer {σ ε : Type} (tc : Toolchain) (ex : Executor σ ε)
    (sourceDir objectDir : GoString) (ccFlags : List GoString) (s : σ) (before : List GoString)
    (f : GoString) : Option ε :=
  (ex.Run Toolchain.ccFormat (tc.ccArgs sourceDir objectDir ccFlags f)
    (Toolchain.stateAfter tc ex sourceDir objectDir ccFlags before s)).1

/-- A path element that `filepath.Clean` keeps as it is: not empty, without a
separator, and neither `.` nor `..`. -/
def filepath.IsPlainElement (e : GoString) : Prop :=
  filepath.Separator ∉ e ∧ e ≠ [] ∧ e ≠ ['.'] ∧ e ≠ ['.', '.']

/-- What `filepath.Join` puts in front of a plain last element: it depends on
the directory only. -/
def filepath.joinPrefix (dir : GoString) : GoString :=
  if dir = [] then []
  else
    let rooted : Bool := dir.head? = some filepath.Separator
    let kept := (filepath.splitElements dir).foldl (filepath.cleanStep rooted) []
    (if rooted then [filepath.Separator] else [])
      ++ (if kept.reverse = [] then [] else strings.Join kept.reverse [filepath.Separator]
            ++ [filepath.Separator])

/-! ## Further inputs of the worked examples -/

/-- A generator whose module list holds the empty path only. -/
def emptyModuleGenerate : Generate :=
  New ".".toList ["".toList]

/-- The generator of the example once `example.com/lib/sub` has been resolved. -/
def exampleAfterSub : Generate :=
  { exampleGenerate with
    knownImportTargets :=
      [("example.com/lib/sub".toList, "///third_party/go/example.com_lib//sub:sub".toList)] }

/-- The generator of the example once `example.com/lib/sub` and then
`example.com/app/internal/core` have been resolved. -/
def exampleAfterCore : Generate :=
  { exampleGenerate with
    knownImportTargets :=
      [("example.com/app/internal/core".toList,
          "///third_party/go/example.com_app//internal/core:core".toList),
        ("example.com/lib/sub".toList, "///third_party/go/example.com_lib//sub:sub".toList)] }

/-- An executor without state whose compiler fails on the source `bad`, with
the name of the source as the error. -/
def failingExecutor (bad : GoString) : Executor Unit GoString :=
  { Run := fun _ args s => (if args.getLast? = some bad then some bad else none, s) }

/-- A toolchain whose C compiler is `cc`. -/
def exampleToolchain : Toolchain :=
  { CcTool := "cc".toList, GoTool := "go".toList, PkgConfigTool := "pkg-config".toList }

/-! ## Maps and attribute lists -/

theorem GoMap.lookup_set (m : GoMap) (k v key : GoString) :
    (m.set k v).lookup key = if key = k then some v else m.lookup key := by
  simp [GoMap.set, GoMap.lookup]

theorem attrLookup_setAttrList (attrs : List (GoString × Expr)) (key key' : GoString) (val : Expr) :
    attrLookup (setAttrList attrs key val) key'
      = if key = key' then some val else attrLookup attrs key' := by
  induction attrs with
  | nil => simp [setAttrList, attrLookup]
  | cons kv attrs ih =>
    obtain ⟨k, v⟩ := kv
    by_cases hk : k = key
    · subst hk
      by_cases h : k = key' <;> simp [setAttrList, attrLookup, h]
    · by_cases h : key = key'
      · subst h
        simp [setAttrList, attrLookup, hk, ih]
      · by_cases h2 : k = key'
        · subst h2
          simp [setAttrList, attrLookup, hk, h]
        · simp [setAttrList, attrLookup, hk, h, h2, ih]

theorem BuildRule.Attr_SetAttr (r : BuildRule) (key key' : GoString) (val : Expr) :
    (r.SetAttr key val).Attr key' = if key = key' then some val else r.Attr key' := by
  simp [BuildRule.SetAttr, BuildRule.Attr, attrLookup_setAttrList]

theorem BuildRule.Attr_ite (c : Prop) [Decidable c] (a b : BuildRule) (key : GoString) :
    (if c then a else b).Attr key = if c then a.Attr key else b.Attr key := by
  split <;> rfl

/-! ## The build file: which attributes are written -/

/-- In the rule call `writeFile` writes, `pkg_config` is present exactly when
the rule has compiler flags, whatever its pkg-config list is. -/
theorem writeRule_pkg_config (r : rule) :
    (Generate.writeRule r).Attr "pkg_config".toList
      = if 0 < r.compilerFlags.length then some (NewStringList r.pkgConfigs) else none := by
  simp only [Generate.writeRule, NewRule, BuildRule.Attr_SetAttr, BuildRule.Attr_ite]
  simp +decide [BuildRule.Attr, attrLookup]

/-- In the rule call `writeFile` writes, `compiler_flags`, `linker_flags`,
`hdrs`, `asm_srcs` and `deps` are each present exactly when the list of the
rule they come from is non-empty, and carry that list. -/
theorem writeRule_list_attrs (r : rule) :
    (Generate.writeRule r).Attr "compiler_flags".toList
      = (if 0 < r.compilerFlags.length then some (NewStringList r.compilerFlags) else none) ∧
    (Generate.writeRule r).Attr "linker_flags".toList
      = (if 0 < r.linkerFlags.length then some (NewStringList r.linkerFlags) else none) ∧
    (Generate.writeRule r).Attr "hdrs".toList
      = (if 0 < r.hdrs.length then some (NewStringList r.hdrs) else none) ∧
    (Generate.writeRule r).Attr "asm_srcs".toList
      = (if 0 < r.asmFiles.length then some (NewStringList r.asmFiles) else none) ∧
    (Generate.writeRule r).Attr "deps".toList
      = (if 0 < r.deps.length then some (NewStringList r.deps) else none) := by
  simp only [Generate.writeRule, NewRule, BuildRule.Attr_SetAttr, BuildRule.Attr_ite]
  simp +decide [BuildRule.Attr, attrLookup]

/-- C10, at a rule with a pkg-config package and no compiler flags: the rule
call written for it has no `pkg_config` attribute, although the pkg-config
list of the rule is not empty. -/
theorem writeRule_pkg_config_missing :
    pkgConfigRule.pkgConfigs = ["libfoo".toList] ∧
    pkgConfigRule.compilerFlags = [] ∧
    (Generate.writeRule pkgConfigRule).Attr "pkg_config".toList = none := by
  decide

/-! ## Rule synthesis: kind and name -/

/-- C6, at the directory `lib/src` of the module `example.com/app` rooted at
`src`: the package directory is `src/lib/src`, which is not the source root and
whose base name is `src`, and the rule is named `app`, after the module. -/
theorem newRule_nested_dir_named_after_module (fuel : Nat) :
    srcGenerate.importDirPath [] "/lib/src".toList = "src/lib/src".toList ∧
    "src/lib/src".toList ≠ srcGenerate.srcRoot ∧
    filepath.Base "src/lib/src".toList = "src".toList ∧
    ∃ r, Generate.newRule fuel srcGenerate (goPackage "src/lib/src".toList "lib".toList)
        = Outcome.done ([r], srcGenerate) ∧ r.name = "app".toList := by
  refine ⟨by decide, by decide, by decide, ?_⟩
  cases fuel <;> exact ⟨_, rfl, by decide⟩

/-! ## Import resolution: the example of the specification -/

/-- C4, as the code has it: with the module list `example.com/lib`,
`example.com/app` of the example, no replacement and an empty cache,
`example.com/lib/sub` resolves to `///third_party/go/example.com_lib//sub:sub`
and the module's own package `example.com/app/internal/core` resolves to
`///third_party/go/example.com_app//internal/core:core`. -/
theorem depTarget_example_targets (fuel : Nat) :
    exampleGenerate.deps = ["example.com/lib".toList, "example.com/app".toList] ∧
    exampleGenerate.replace = [] ∧ exampleGenerate.knownImportTargets = [] ∧
    (Generate.depTarget (fuel + 1) exampleGenerate "example.com/lib/sub".toList).map Prod.fst
      = some "///third_party/go/example.com_lib//sub:sub".toList ∧
    (Generate.depTarget (fuel + 1) exampleGenerate
        "example.com/app/internal/core".toList).map Prod.fst
      = some "///third_party/go/example.com_app//internal/core:core".toList :=
  ⟨by decide, rfl, rfl, rfl, rfl⟩

/-- C4 as stated fails on the module's own package: the target returned for
`example.com/app/internal/core` is subrepo-qualified. -/
theorem depTarget_example_self_import_is_subrepo :
    ∃ t g, Generate.depTarget 1 exampleGenerate "example.com/app/internal/core".toList
        = some (t, g) ∧ isSubrepoQualified t = true :=
  ⟨_, _, rfl, by decide⟩

/-! ## Import resolution: strings and the module loop -/

theorem strings.HasPrefix_iff (s pre : GoString) : strings.HasPrefix s pre = true ↔ pre <+: s := by
  simp [strings.HasPrefix]

theorem strings.replaceScan_slash (n : Nat) (s : GoString) (h : s.length ≤ n) :
    strings.replaceScan ['/'] ['_'] n s = s.map (fun c => if c = '/' then '_' else c) := by
  induction n generalizing s with
  | zero =>
    have : s = [] := List.length_eq_zero.mp (Nat.le_zero.mp h)
    subst this
    simp [strings.replaceScan]
  | succ n ih =>
    cases s with
    | nil => simp [strings.replaceScan]
    | cons c cs =>
      have hcs : cs.length ≤ n := by simpa using h
      by_cases hc : c = '/'
      · subst hc
        simp [strings.replaceScan, ih cs hcs]
      · have hc2 : ¬ '/' = c := fun e => hc e.symm
        simp [strings.replaceScan, ih cs hcs, hc, hc2]

theorem strings.ReplaceAll_slash (s : GoString) :
    strings.ReplaceAll s "/".toList "_".toList = s.map (fun c => if c = '/' then '_' else c) := by
  have : strings.ReplaceAll s "/".toList "_".toList = strings.replaceScan ['/'] ['_'] s.length s := by
    simp [strings.ReplaceAll]
  rw [this, strings.replaceScan_slash _ _ le_rfl]

theorem strings.TrimPrefix_slash (s : GoString) :
    strings.TrimPrefix s "/".toList = dropLeadingSlash s := by
  cases s with
  | nil => simp [strings.TrimPrefix, strings.HasPrefix, dropLeadingSlash]
  | cons c cs =>
    by_cases hc : c = '/'
    · subst hc
      simp [strings.TrimPrefix, strings.HasPrefix, dropLeadingSlash]
    · have hc2 : ¬ '/' = c := fun e => hc e.symm
      have hd : dropLeadingSlash (c :: cs) = c :: cs := by
        unfold dropLeadingSlash
        split
        · next rest heq => simp at heq; exact absurd heq.1 hc
        · rfl
      simp [strings.TrimPrefix, strings.HasPrefix, hc, hc2, hd]

theorem composeTarget_eq_claimed (m p : GoString) (h : m <+: p) :
    Generate.composeTarget p m = claimedTarget m p := by
  have h1 : strings.TrimPrefix p m = p.drop m.length := by
    simp [strings.TrimPrefix, strings.HasPrefix, h]
  simp only [Generate.composeTarget, claimedTarget, claimedSubPath, h1, strings.ReplaceAll_slash,
    strings.TrimPrefix_slash]

theorem composeTarget_ne_nil (importPath module : GoString) :
    Generate.composeTarget importPath module ≠ [] := by
  unfold Generate.composeTarget
  simp only
  split <;> simp

theorem claimedTarget_ne_nil (m p : GoString) : claimedTarget m p ≠ [] := by
  unfold claimedTarget
  simp only
  split <;> simp

/-- The module loop of `depTarget`, started from any choice `acc`: the result
is `acc` or a module of the list that is a prefix of the path, and it is at
least as long as `acc` and as every module of the list that is a prefix. -/
theorem longestModule_fold (p : GoString) (deps : List GoString) (acc : GoString) :
    let r := deps.foldl
      (fun module mod =>
        if strings.HasPrefix p mod then
          if module.length < mod.length then mod else module
        else module) acc
    (r = acc ∨ (r ∈ deps ∧ r <+: p)) ∧ acc.length ≤ r.length ∧
      ∀ m ∈ deps, m <+: p → m.length ≤ r.length := by
  induction deps generalizing acc with
  | nil => simp
  | cons d deps ih =>
    simp only [List.foldl_cons]
    by_cases hd : strings.HasPrefix p d = true
    · have hdp : d <+: p := (strings.HasPrefix_iff p d).mp hd
      by_cases hlt : acc.length < d.length
      · simp only [hd, hlt, if_true]
        obtain ⟨h1, h2, h3⟩ := ih d
        refine ⟨?_, by omega, ?_⟩
        · rcases h1 with h1 | ⟨h1, h1p⟩
          · right; rw [h1]; exact ⟨List.mem_cons_self _ _, hdp⟩
          · right; exact ⟨List.mem_cons_of_mem _ h1, h1p⟩
        · intro m hm hmp
          rcases List.mem_cons.mp hm with rfl | hm
          · exact h2
          · exact h3 m hm hmp
      · simp only [hd, hlt, if_true, if_false]
        obtain ⟨h1, h2, h3⟩ := ih acc
        refine ⟨?_, h2, ?_⟩
        · rcases h1 with h1 | ⟨h1, h1p⟩
          · left; exact h1
          · right; exact ⟨List.mem_cons_of_mem _ h1, h1p⟩
        · intro m hm hmp
          rcases List.mem_cons.mp hm with rfl | hm
          · omega
          · exact h3 m hm hmp
    · have hdp : ¬ d <+: p := fun h => hd ((strings.HasPrefix_iff p d).mpr h)
      simp only [hd]
      obtain ⟨h1, h2, h3⟩ := ih acc
      refine ⟨?_, h2, ?_⟩
      · rcases h1 with h1 | ⟨h1, h1p⟩
        · left; exact h1
        · right; exact ⟨List.mem_cons_of_mem _ h1, h1p⟩
      · intro m hm hmp
        rcases List.mem_cons.mp hm with rfl | hm
        · exact absurd hmp hdp
        · exact h3 m hm hmp

theorem longestModule_spec (p : GoString) (deps : List GoString) :
    (Generate.longestModule p deps = [] ∨
      (Generate.longestModule p deps ∈ deps ∧ Generate.longestModule p deps <+: p)) ∧
    ∀ m ∈ deps, m <+: p → m.length ≤ (Generate.longestModule p deps).length := by
  have h := longestModule_fold p deps []
  exact ⟨h.1, h.2.2⟩

/-! ## Import resolution: longest prefix (C1) -/

/-- C1, as the code has it: from an empty cache and for an import path `p` that
is not a key of the replace map, if some non-empty module of the list is a
prefix of `p`, `depTarget` returns a non-empty target, the one the
specification composes from the longest module that is a prefix of `p`; if no
non-empty module of the list is a prefix of `p`, it returns the empty string. -/
theorem depTarget_longest_module (fuel : Nat) (g : Generate) (p : GoString)
    (hcache : g.knownImportTargets = []) (hrep : g.replace.lookup p = none) :
    ((∃ m ∈ g.deps, m ≠ [] ∧ m <+: p) →
      ∃ m ∈ g.deps, m ≠ [] ∧ m <+: p ∧ (∀ m' ∈ g.deps, m' <+: p → m'.length ≤ m.length) ∧
        claimedTarget m p ≠ [] ∧
        (Generate.depTarget (fuel + 1) g p).map Prod.fst = some (claimedTarget m p)) ∧
    ((¬ ∃ m ∈ g.deps, m ≠ [] ∧ m <+: p) →
      (Generate.depTarget (fuel + 1) g p).map Prod.fst = some []) := by
  obtain ⟨hin, hmax⟩ := longestModule_spec p g.deps
  constructor
  · rintro ⟨m, hm, hne, hmp⟩
    have hlen : 0 < (Generate.longestModule p g.deps).length :=
      lt_of_lt_of_le (List.length_pos.mpr hne) (hmax m hm hmp)
    have hne2 : Generate.longestModule p g.deps ≠ [] := List.length_pos.mp hlen
    rcases hin with hin | ⟨hin, hpre⟩
    · exact absurd hin hne2
    · refine ⟨_, hin, hne2, hpre, hmax, claimedTarget_ne_nil _ _, ?_⟩
      simp [Generate.depTarget, hcache, hrep, GoMap.lookup, hne2, composeTarget_eq_claimed _ _ hpre]
  · intro hno
    have hnil : Generate.longestModule p g.deps = [] := by
      rcases hin with hin | ⟨hin, hpre⟩
      · exact hin
      · by_contra hne
        exact hno ⟨_, hin, hne, hpre⟩
    simp [Generate.depTarget, hcache, hrep, GoMap.lookup, hnil]

/-- C1 at `example.com/lib/sub` in the example of the specification. -/
theorem depTarget_longest_module_witness :
    ∃ m ∈ exampleGenerate.deps, m <+: "example.com/lib/sub".toList ∧
      (Generate.depTarget 1 exampleGenerate "example.com/lib/sub".toList).map Prod.fst
        = some (claimedTarget m "example.com/lib/sub".toList) := by
  obtain ⟨m, hm, -, hpre, -, -, h⟩ :=
    (depTarget_longest_module 0 exampleGenerate "example.com/lib/sub".toList rfl rfl).1
      ⟨"example.com/lib".toList, by decide, by decide, by decide⟩
  exact ⟨m, hm, hpre, h⟩

/-- C1 as stated fails when the empty path is in the module list: it is a
prefix of `fmt`, and `depTarget` returns the empty string. -/
theorem depTarget_empty_module_is_no_match :
    emptyModuleGenerate.knownImportTargets = [] ∧
    emptyModuleGenerate.replace.lookup "fmt".toList = none ∧
    (∃ m ∈ emptyModuleGenerate.deps, m <+: "fmt".toList) ∧
    (Generate.depTarget 1 emptyModuleGenerate "fmt".toList).map Prod.fst = some [] := by
  exact ⟨rfl, rfl, ⟨[], by decide, by decide⟩, rfl⟩

/-! ## Import resolution: the cache is sound (C2, C3) -/

theorem resolve_unique (deps : List GoString) (replace : GoMap) (n m : Nat) (p v w : GoString)
    (hv : Generate.resolve deps replace n p = some v)
    (hw : Generate.resolve deps replace m p = some w) : v = w := by
  induction n generalizing m p with
  | zero => simp [Generate.resolve] at hv
  | succ n ih =>
    cases m with
    | zero => simp [Generate.resolve] at hw
    | succ m =>
      simp only [Generate.resolve] at hv hw
      cases hq : replace.lookup p with
      | none =>
        simp only [hq, Option.some.injEq] at hv hw
        rw [← hv, ← hw]
      | some q =>
        simp only [hq] at hv hw
        exact ih m q hv hw

theorem depTarget_sound (fuel : Nat) (g g1 : Generate) (p t : GoString)
    (hs : g.CacheSound) (h : Generate.depTarget fuel g p = some (t, g1)) :
    g1.deps = g.deps ∧ g1.replace = g.replace ∧ g1.CacheSound ∧
      ∃ n, Generate.resolve g.deps g.replace n p = some t := by
  induction fuel generalizing g g1 p t with
  | zero => simp [Generate.depTarget] at h
  | succ fuel ih =>
    simp only [Generate.depTarget] at h
    split at h
    · next target hhit =>
      simp only [Option.some.injEq, Prod.mk.injEq] at h
      obtain ⟨rfl, rfl⟩ := h
      exact ⟨rfl, rfl, hs, hs p _ hhit⟩
    · next hmiss =>
      split at h
      · next replacement hrep =>
        split at h
        · simp at h
        · next target g2 hrec =>
          simp only [Option.some.injEq, Prod.mk.injEq] at h
          obtain ⟨rfl, rfl⟩ := h
          obtain ⟨hd, hr, hs2, n, hn⟩ := ih g g2 replacement target hs hrec
          have hp : Generate.resolve g.deps g.replace (n + 1) p = some target := by
            simp only [Generate.resolve, hrep]
            exact hn
          refine ⟨hd, hr, ?_, n + 1, hp⟩
          intro k v hk
          simp only [GoMap.lookup_set] at hk
          simp only [hd, hr]
          by_cases hkp : k = p
          · subst hkp
            simp only [if_true, Option.some.injEq] at hk
            subst hk
            exact ⟨n + 1, hp⟩
          · simp only [hkp, if_false] at hk
            have := hs2 k v hk
            rwa [hd, hr] at this
      · next hrep =>
        split at h
        · next hnil =>
          simp only [Option.some.injEq, Prod.mk.injEq] at h
          obtain ⟨rfl, rfl⟩ := h
          exact ⟨rfl, rfl, hs, 1, by simp [Generate.resolve, hrep, Generate.directTarget, hnil]⟩
        · next hne =>
          simp only [Option.some.injEq, Prod.mk.injEq] at h
          obtain ⟨rfl, rfl⟩ := h
          have hp : Generate.resolve g.deps g.replace 1 p
              = some (Generate.composeTarget p (Generate.longestModule p g.deps)) := by
            simp [Generate.resolve, hrep, Generate.directTarget, hne]
          refine ⟨rfl, rfl, ?_, 1, hp⟩
          intro k v hk
          simp only [GoMap.lookup_set] at hk
          by_cases hkp : k = p
          · subst hkp
            simp only [if_true, Option.some.injEq] at hk
            subst hk
            exact ⟨1, hp⟩
          · simp only [hkp, if_false] at hk
            exact hs k v hk

theorem Reachable_sound {g0 g : Generate} (hr : Generate.Reachable g0 g) (hs : g0.CacheSound) :
    g.deps = g0.deps ∧ g.replace = g0.replace ∧ g.CacheSound := by
  induction hr with
  | start => exact ⟨rfl, rfl, hs⟩
  | call fuel p t _ hcall ih =>
    obtain ⟨hd, hrep, hs1⟩ := ih
    obtain ⟨hd2, hrep2, hs2, -⟩ := depTarget_sound fuel _ _ p t hs1 hcall
    exact ⟨hd2.trans hd, hrep2.trans hrep, hs2⟩

theorem CacheSound_of_empty (g : Generate) (h : g.knownImportTargets = []) : g.CacheSound := by
  intro k v hk
  simp [h, GoMap.lookup] at hk

/-- The replace branch of `depTarget`, had the replace map an entry
`old -> new`: in a generator reached from an empty cache, when the call for
`new` returns `t`, the call for `old` returns `t` as well. -/
theorem depTarget_replace_branch (g0 g g1 : Generate) (old new t : GoString) (fuel : Nat)
    (hempty : g0.knownImportTargets = []) (hreach : Generate.Reachable g0 g)
    (hrep : g.replace.lookup old = some new)
    (hnew : Generate.depTarget fuel g new = some (t, g1)) :
    (∃ g2, Generate.depTarget (fuel + 1) g old = some (t, g2)) ∧
    ∀ fuel2 t2 g2, Generate.depTarget fuel2 g old = some (t2, g2) → t2 = t := by
  obtain ⟨-, -, hs⟩ := Reachable_sound hreach (CacheSound_of_empty g0 hempty)
  obtain ⟨-, -, -, n, hn⟩ := depTarget_sound fuel g g1 new t hs hnew
  have hold : Generate.resolve g.deps g.replace (n + 1) old = some t := by
    simp only [Generate.resolve, hrep]
    exact hn
  constructor
  · cases hc : g.knownImportTargets.lookup old with
    | some v =>
      obtain ⟨m, hm⟩ := hs old v hc
      have hv : v = t := resolve_unique _ _ m (n + 1) old v t hm hold
      exact ⟨g, by simp [Generate.depTarget, hc, hv]⟩
    | none =>
      exact ⟨{ g1 with knownImportTargets := g1.knownImportTargets.set old t },
        by simp only [Generate.depTarget, hc, hrep, hnew]⟩
  · intro fuel2 t2 g2 h2
    obtain ⟨-, -, -, m, hm⟩ := depTarget_sound fuel2 g g2 old t2 hs h2
    exact resolve_unique _ _ m (n + 1) old t2 t hm hold

/-- Whatever the manifest holds, `readGoMod` leaves the replace map empty. -/
theorem readGoMod_replace_nil (g : Generate) (file : GoMod) : (g.readGoMod file).replace = [] := by
  rfl

/-- The replace map of every generator of a run, that is `New`, `readGoMod` and
then any calls of `depTarget` that return, is empty. -/
theorem runState_replace_nil (srcRoot : GoString) (requirements : List GoString) (file : GoMod)
    (g : Generate) (hr : Generate.Reachable ((New srcRoot requirements).readGoMod file) g) :
    g.replace = [] := by
  obtain ⟨-, hrep, -⟩ := Reachable_sound hr (CacheSound_of_empty _ rfl)
  rw [hrep]
  rfl

/-- With an empty replace map a call of `depTarget` returns as soon as it has
fuel for one call, and leaves everything but the cache as it was. -/
theorem depTarget_total (fuel : Nat) (g : Generate) (p : GoString) (hrep : g.replace = []) :
    ∃ t g1, Generate.depTarget (fuel + 1) g p = some (t, g1) ∧ g1.replace = [] := by
  have hlook : g.replace.lookup p = none := by rw [hrep]; rfl
  cases hc : g.knownImportTargets.lookup p with
  | some v => exact ⟨v, g, by simp [Generate.depTarget, hc], hrep⟩
  | none =>
    by_cases hm : Generate.longestModule p g.deps = []
    · exact ⟨[], g, by simp [Generate.depTarget, hc, hlook, hm], hrep⟩
    · exact ⟨Generate.composeTarget p (Generate.longestModule p g.deps),
        { g with
          knownImportTargets :=
            g.knownImportTargets.set p
              (Generate.composeTarget p (Generate.longestModule p g.deps)) },
        by simp only [Generate.depTarget, hc, hlook, hm, if_false], hrep⟩

/-- With an empty replace map `depTargets` returns as soon as it has fuel for
one call. -/
theorem depTargets_total (fuel : Nat) (g : Generate) (imports : List GoString)
    (hrep : g.replace = []) :
    ∃ deps g1, Generate.depTargets (fuel + 1) g imports = some (deps, g1) := by
  induction imports generalizing g with
  | nil => exact ⟨[], g, rfl⟩
  | cons p rest ih =>
    obtain ⟨t, g1, h1, hrep1⟩ := depTarget_total fuel g p hrep
    obtain ⟨deps, g2, h2⟩ := ih g1 hrep1
    exact ⟨if t = [] then deps else t :: deps, g2, by simp only [Generate.depTargets, h1, h2]⟩

/-- C3: starting from an empty cache, two calls of `depTarget` for one and the
same import path that return, with any calls that return before, between and
after them, return the same string. -/
theorem depTarget_stable (g0 g1 g1' g2 g2' : Generate) (p t1 t2 : GoString) (f1 f2 : Nat)
    (hempty : g0.knownImportTargets = [])
    (hr1 : Generate.Reachable g0 g1) (hc1 : Generate.depTarget f1 g1 p = some (t1, g1'))
    (hr2 : Generate.Reachable g1' g2) (hc2 : Generate.depTarget f2 g2 p = some (t2, g2')) :
    t1 = t2 := by
  obtain ⟨hd1, hrep1, hs1⟩ := Reachable_sound hr1 (CacheSound_of_empty g0 hempty)
  obtain ⟨hd1', hrep1', hs1', n1, hn1⟩ := depTarget_sound f1 g1 g1' p t1 hs1 hc1
  obtain ⟨hd2, hrep2, hs2⟩ := Reachable_sound hr2 hs1'
  obtain ⟨-, -, -, n2, hn2⟩ := depTarget_sound f2 g2 g2' p t2 hs2 hc2
  rw [hd2, hrep2, hd1', hrep1'] at hn2
  exact resolve_unique _ _ n1 n2 p t1 t2 hn1 hn2

/-- C3 in the example: `example.com/lib/sub` is resolved, then
`example.com/app/internal/core`, then `example.com/lib/sub` again, with the
same result. -/
theorem depTarget_stable_witness :
    Generate.depTarget 1 exampleGenerate "example.com/lib/sub".toList
      = some ("///third_party/go/example.com_lib//sub:sub".toList, exampleAfterSub) ∧
    Generate.depTarget 1 exampleAfterSub "example.com/app/internal/core".toList
      = some ("///third_party/go/example.com_app//internal/core:core".toList, exampleAfterCore) ∧
    Generate.depTarget 1 exampleAfterCore "example.com/lib/sub".toList
      = some ("///third_party/go/example.com_lib//sub:sub".toList, exampleAfterCore) ∧
    (Generate.depTarget 1 exampleGenerate "example.com/lib/sub".toList).map Prod.fst
      = (Generate.depTarget 1 exampleAfterCore "example.com/lib/sub".toList).map Prod.fst :=
  ⟨rfl, rfl, rfl, congrArg some
    (depTarget_stable exampleGenerate exampleGenerate exampleAfterSub exampleAfterCore
      exampleAfterCore "example.com/lib/sub".toList
      "///third_party/go/example.com_lib//sub:sub".toList
      "///third_party/go/example.com_lib//sub:sub".toList 1 1 rfl (Generate.Reachable.start _) rfl
      (Generate.Reachable.call 1 "example.com/app/internal/core".toList _
        (Generate.Reachable.start _) rfl) rfl)⟩

/-! ## Import resolution: what a call leaves in the cache (C7) -/

/-- What a call of `depTarget` that returns leaves in the cache, branch by
branch. -/
theorem depTarget_cache_branches (fuel : Nat) (g g1 : Generate) (p t : GoString)
    (h : Generate.depTarget fuel g p = some (t, g1)) :
    (t ≠ [] → g1.knownImportTargets.lookup p = some t) ∧
    (t = [] → g.replace.lookup p = none ∨ g.knownImportTargets.lookup p ≠ none → g1 = g) ∧
    (t = [] → g.replace.lookup p ≠ none → g.knownImportTargets.lookup p = none →
      g1.knownImportTargets.lookup p = some []) := by
  cases fuel with
  | zero => simp [Generate.depTarget] at h
  | succ fuel =>
    simp only [Generate.depTarget] at h
    split at h
    · next target hhit =>
      simp only [Option.some.injEq, Prod.mk.injEq] at h
      obtain ⟨rfl, rfl⟩ := h
      simp [hhit]
    · next hmiss =>
      split at h
      · next replacement hrep =>
        split at h
        · simp at h
        · next target g2 hrec =>
          simp only [Option.some.injEq, Prod.mk.injEq] at h
          obtain ⟨rfl, rfl⟩ := h
          simp [GoMap.lookup_set, hrep, hmiss]
      · next hrep =>
        split at h
        · simp only [Option.some.injEq, Prod.mk.injEq] at h
          obtain ⟨rfl, rfl⟩ := h
          simp [hrep]
        · simp only [Option.some.injEq, Prod.mk.injEq] at h
          obtain ⟨rfl, rfl⟩ := h
          simp [GoMap.lookup_set, hrep, composeTarget_ne_nil]

/-- C7: in every generator with an empty replace map, which is every generator
of a run (`runState_replace_nil`), the call of `depTarget` for `p` returns; if
it returns a non-empty target, the cache afterwards maps `p` to that target; if
it returns the empty string, the cache afterwards is the cache before the
call. -/
theorem depTarget_cache_effect (fuel : Nat) (g : Generate) (p : GoString)
    (hrep : g.replace = []) :
    ∃ t g1, Generate.depTarget (fuel + 1) g p = some (t, g1) ∧
      (t ≠ [] → g1.knownImportTargets.lookup p = some t) ∧
      (t = [] → g1.knownImportTargets = g.knownImportTargets) := by
  obtain ⟨t, g1, h, -⟩ := depTarget_total fuel g p hrep
  obtain ⟨h1, h2, -⟩ := depTarget_cache_branches (fuel + 1) g g1 p t h
  refine ⟨t, g1, h, h1, fun ht => ?_⟩
  have hlook : g.replace.lookup p = none := by rw [hrep]; rfl
  rw [h2 ht (Or.inl hlook)]

/-- C7 in the example of the specification, at `example.com/lib/sub`. -/
theorem depTarget_cache_effect_witness :
    exampleGenerate.replace = [] ∧
    ∃ t g1, Generate.depTarget 1 exampleGenerate "example.com/lib/sub".toList = some (t, g1) ∧
      (t ≠ [] → g1.knownImportTargets.lookup "example.com/lib/sub".toList = some t) ∧
      (t = [] → g1.knownImportTargets = exampleGenerate.knownImportTargets) :=
  ⟨rfl, depTarget_cache_effect 0 exampleGenerate "example.com/lib/sub".toList rfl⟩

/-! ## Rule synthesis: kind selection (C5) -/

/-- C5, as the code has it: in every generator with an empty replace map, which
is every generator of a run (`runState_replace_nil`), when the name derived for
the rule is not `.`, `newRule` returns; a package without Go and cgo files
gives no rule; a package with such files gives exactly one rule, of kind
`go_binary`, `go_library`, `cgo_binary` or `cgo_library` according to whether
the package is a command and whether it has cgo files. -/
theorem newRule_kind_selection (fuel : Nat) (g : Generate) (pkg : Package)
    (hrep : g.replace = []) (hname : g.ruleName pkg ≠ ".".toList) :
    (pkg.GoFiles = [] ∧ pkg.CgoFiles = [] →
      Generate.newRule (fuel + 1) g pkg = Outcome.done ([], g)) ∧
    (¬ (pkg.GoFiles = [] ∧ pkg.CgoFiles = []) →
      ∃ r g1, Generate.newRule (fuel + 1) g pkg = Outcome.done ([r], g1) ∧
        (pkg.IsCommand = true → pkg.CgoFiles = [] → r.kind = "go_binary".toList) ∧
        (pkg.IsCommand = false → pkg.CgoFiles = [] → r.kind = "go_library".toList) ∧
        (pkg.IsCommand = true → pkg.CgoFiles ≠ [] → r.kind = "cgo_binary".toList) ∧
        (pkg.IsCommand = false → pkg.CgoFiles ≠ [] → r.kind = "cgo_library".toList)) := by
  have hname2 : ¬ g.ruleName pkg = ['.'] := hname
  have hlen : ∀ l : List GoString, 0 < l.length ↔ l ≠ [] := fun l => List.length_pos
  constructor
  · rintro ⟨h1, h2⟩
    simp [Generate.newRule, hname2, h1, h2]
  · intro hsrc
    obtain ⟨deps, g1, hdeps⟩ := depTargets_total fuel g pkg.Imports hrep
    have hsrc2 : 0 < pkg.GoFiles.length ∨ 0 < pkg.CgoFiles.length := by
      rw [hlen, hlen]
      by_contra hcon
      push_neg at hcon
      exact hsrc hcon
    refine ⟨{ name := g.ruleName pkg, kind := packageKind pkg, srcs := pkg.GoFiles,
              cgoSrcs := pkg.CgoFiles, compilerFlags := pkg.CgoCFLAGS,
              linkerFlags := pkg.CgoLDFLAGS, pkgConfigs := pkg.CgoPkgConfig,
              asmFiles := pkg.SFiles, hdrs := pkg.HFiles, deps := deps,
              embedPatterns := pkg.EmbedPatterns }, g1,
      by simp [Generate.newRule, hname2, hsrc2, hdeps], ?_, ?_, ?_, ?_⟩
    all_goals intro hc hcgo
    all_goals simp [packageKind, hc, hcgo]

/-- C5 at a command package in `src/cmd` of the module rooted at `src` that
imports `fmt` and a package of its own module: one rule, of kind `go_binary`. -/
theorem newRule_kind_selection_witness :
    srcGenerate.replace = [] ∧ srcGenerate.ruleName importingPackage ≠ ".".toList ∧
    importingPackage.Imports ≠ [] ∧
    ∃ r g1, Generate.newRule 1 srcGenerate importingPackage = Outcome.done ([r], g1) ∧
      r.kind = "go_binary".toList := by
  refine ⟨rfl, by decide, by decide, ?_⟩
  obtain ⟨r, g1, hr, hbin, -⟩ :=
    (newRule_kind_selection 0 srcGenerate importingPackage rfl (by decide)).2 (by decide)
  exact ⟨r, g1, hr, hbin (by decide) (by decide)⟩

/-- C5 as stated fails where the derived name is `.`: with the source root
written `./` and no `TMP_DIR`, the root package is imported from the directory
`.`, which does not end in `./`; its rule would be named `.`, and `newRule`
panics although the package has a Go file. -/
theorem newRule_panics_on_dot_name :
    dotSlashGenerate.importDirPath [] ".".toList = ".".toList ∧
    (goPackage ".".toList "main".toList).GoFiles ≠ [] ∧
    Generate.newRule 1 dotSlashGenerate (goPackage ".".toList "main".toList)
      = Outcome.panicked "example.com/app .".toList :=
  ⟨by decide, by decide, rfl⟩

/-! ## The C compile stage: fail-fast (C8) -/

/-- The loop of `CCompile` when the executor answers every compiler command,
run in order, without error: every source is compiled and the object files are
returned. -/
theorem ccompileLoop_all_ok {σ ε : Type} (tc : Toolchain) (ex : Executor σ ε)
    (sourceDir objectDir : GoString) (ccFlags ccFiles objFiles : List GoString) (w : World σ ε)
    (hok : ∀ a x b, ccFiles = a ++ x :: b →
      tc.ccAnswer ex sourceDir objectDir ccFlags w.state a x = none) :
    Toolchain.ccompileLoop tc ex sourceDir objectDir ccFlags ccFiles objFiles w
      = (Except.ok (objFiles ++ ccFiles.map (Toolchain.objFile objectDir)),
          { state := tc.stateAfter ex sourceDir objectDir ccFlags ccFiles w.state,
            log := w.log ++ ccFiles.map (tc.ccInvocation sourceDir objectDir ccFlags none) }) := by
  induction ccFiles generalizing objFiles w with
  | nil => simp [Toolchain.ccompileLoop, Toolchain.stateAfter]
  | cons f rest ih =>
    have hf : (ex.Run Toolchain.ccFormat (tc.ccArgs sourceDir objectDir ccFlags f) w.state).1
        = none := hok [] f rest rfl
    have hrest : ∀ a x b, rest = a ++ x :: b →
        tc.ccAnswer ex sourceDir objectDir ccFlags
          (ex.Run Toolchain.ccFormat (tc.ccArgs sourceDir objectDir ccFlags f) w.state).2 a x
          = none := by
      intro a x b hsplit
      exact hok (f :: a) x b (by rw [hsplit]; rfl)
    have hstep : Toolchain.ccompileLoop tc ex sourceDir objectDir ccFlags (f :: rest) objFiles w
        = Toolchain.ccompileLoop tc ex sourceDir objectDir ccFlags rest
            (objFiles ++ [Toolchain.objFile objectDir f])
            { state :=
                (ex.Run Toolchain.ccFormat (tc.ccArgs sourceDir objectDir ccFlags f) w.state).2,
              log := w.log ++ [tc.ccInvocation sourceDir objectDir ccFlags none f] } := by
      simp [Toolchain.ccompileLoop, Executor.RunLogged, hf, Toolchain.ccInvocation]
    rw [hstep, ih _ _ hrest]
    simp [Toolchain.stateAfter]

/-- The loop of `CCompile` when the executor answers the compiler commands of
the sources `pre`, run in order, without error and the command of the next
source `f` with the error `err`: the loop ends there with `err`. -/
theorem ccompileLoop_first_failure {σ ε : Type} (tc : Toolchain) (ex : Executor σ ε)
    (sourceDir objectDir : GoString) (ccFlags pre : List GoString) (f : GoString)
    (post objFiles : List GoString) (err : ε) (w : World σ ε)
    (hpre : ∀ a x b, pre = a ++ x :: b →
      tc.ccAnswer ex sourceDir objectDir ccFlags w.state a x = none)
    (hf : tc.ccAnswer ex sourceDir objectDir ccFlags w.state pre f = some err) :
    Toolchain.ccompileLoop tc ex sourceDir objectDir ccFlags (pre ++ f :: post) objFiles w
      = (Except.error err,
          { state := tc.stateAfter ex sourceDir objectDir ccFlags (pre ++ [f]) w.state,
            log := w.log ++ pre.map (tc.ccInvocation sourceDir objectDir ccFlags none)
              ++ [tc.ccInvocation sourceDir objectDir ccFlags (some err) f] }) := by
  induction pre generalizing objFiles w with
  | nil =>
    have hf2 : (ex.Run Toolchain.ccFormat (tc.ccArgs sourceDir objectDir ccFlags f) w.state).1
        = some err := hf
    simp [Toolchain.ccompileLoop, Executor.RunLogged, hf2, Toolchain.ccInvocation,
      Toolchain.stateAfter]
  | cons x rest ih =>
    have hx : (ex.Run Toolchain.ccFormat (tc.ccArgs sourceDir objectDir ccFlags x) w.state).1
        = none := hpre [] x rest rfl
    have hrest : ∀ a y b, rest = a ++ y :: b →
        tc.ccAnswer ex sourceDir objectDir ccFlags
          (ex.Run Toolchain.ccFormat (tc.ccArgs sourceDir objectDir ccFlags x) w.state).2 a y
          = none := by
      intro a y b hsplit
      exact hpre (x :: a) y b (by rw [hsplit]; rfl)
    have hstep : Toolchain.ccompileLoop tc ex sourceDir objectDir ccFlags
          (x :: rest ++ f :: post) objFiles w
        = Toolchain.ccompileLoop tc ex sourceDir objectDir ccFlags (rest ++ f :: post)
            (objFiles ++ [Toolchain.objFile objectDir x])
            { state :=
                (ex.Run Toolchain.ccFormat (tc.ccArgs sourceDir objectDir ccFlags x) w.state).2,
              log := w.log ++ [tc.ccInvocation sourceDir objectDir ccFlags none x] } := by
      simp [Toolchain.ccompileLoop, Executor.RunLogged, hx, Toolchain.ccInvocation]
    rw [hstep, ih _ _ hrest hf]
    simp [Toolchain.stateAfter]

/-- Every behaviour of the executor falls under one of the two cases of
`CCompile_fail_fast`: run in order, either every compiler command is answered
without error, or there is a first one that is answered with an error. -/
theorem ccAnswer_cases {σ ε : Type} (tc : Toolchain) (ex : Executor σ ε)
    (sourceDir objectDir : GoString) (ccFlags ccFiles : List GoString) (s : σ) :
    (∀ a x b, ccFiles = a ++ x :: b → tc.ccAnswer ex sourceDir objectDir ccFlags s a x = none) ∨
    ∃ pre f post err, ccFiles = pre ++ f :: post ∧
      (∀ a x b, pre = a ++ x :: b → tc.ccAnswer ex sourceDir objectDir ccFlags s a x = none) ∧
      tc.ccAnswer ex sourceDir objectDir ccFlags s pre f = some err := by
  induction ccFiles generalizing s with
  | nil =>
    left
    intro a x b h
    simp at h
  | cons f rest ih =>
    cases hf : (ex.Run Toolchain.ccFormat (tc.ccArgs sourceDir objectDir ccFlags f) s).1 with
    | some err =>
      right
      exact ⟨[], f, rest, err, rfl, fun a x b h => by simp at h, hf⟩
    | none =>
      have hcons : ∀ a x b (pre : List GoString), f :: pre = a ++ x :: b →
          (∀ a2 x2 b2, pre = a2 ++ x2 :: b2 →
            tc.ccAnswer ex sourceDir objectDir ccFlags
              (ex.Run Toolchain.ccFormat (tc.ccArgs sourceDir objectDir ccFlags f) s).2 a2 x2
              = none) →
          tc.ccAnswer ex sourceDir objectDir ccFlags s a x = none := by
        intro a x b pre h hall
        cases a with
        | nil =>
          simp only [List.nil_append, List.cons.injEq] at h
          obtain ⟨rfl, -⟩ := h
          exact hf
        | cons y a2 =>
          simp only [List.cons_append, List.cons.injEq] at h
          obtain ⟨rfl, h2⟩ := h
          exact hall a2 x b h2
      rcases ih (ex.Run Toolchain.ccFormat (tc.ccArgs sourceDir objectDir ccFlags f) s).2
        with hall | ⟨pre, g, post, err, hsplit, hpre, hg⟩
      · left
        intro a x b h
        exact hcons a x b rest h hall
      · right
        refine ⟨f :: pre, g, post, err, by rw [hsplit]; rfl, ?_, hg⟩
        intro a x b h
        exact hcons a x b pre h hpre

/-- C8: the executor is arbitrary and `CCompile` runs the compiler commands of
the sources through it, in input order.  If the executor answers every command
without error, `CCompile` has called it once per source, in order, and returns
the object files of all sources.  If it answers the commands of the sources
`pre` without error and then the command of the next source `f` with the error
`err`, `CCompile` returns `err` and no object files, the world is the one the
calls for `pre` and `f` left, and the calls made are those for `pre` and `f`: no
command was run for a source after `f`. -/
theorem CCompile_fail_fast {σ ε : Type} (tc : Toolchain) (ex : Executor σ ε)
    (sourceDir objectDir : GoString) (ccFiles ccFlags : List GoString) (w : World σ ε) :
    ((∀ a x b, ccFiles = a ++ x :: b →
        tc.ccAnswer ex sourceDir objectDir ccFlags w.state a x = none) →
      tc.CCompile ex sourceDir objectDir ccFiles ccFlags w
        = (Except.ok (ccFiles.map (Toolchain.objFile objectDir)),
            { state := tc.stateAfter ex sourceDir objectDir ccFlags ccFiles w.state,
              log := w.log ++ ccFiles.map (tc.ccInvocation sourceDir objectDir ccFlags none) })) ∧
    (∀ pre f post err, ccFiles = pre ++ f :: post →
      (∀ a x b, pre = a ++ x :: b →
        tc.ccAnswer ex sourceDir objectDir ccFlags w.state a x = none) →
      tc.ccAnswer ex sourceDir objectDir ccFlags w.state pre f = some err →
      tc.CCompile ex sourceDir objectDir ccFiles ccFlags w
        = (Except.error err,
            { state := tc.stateAfter ex sourceDir objectDir ccFlags (pre ++ [f]) w.state,
              log := w.log ++ pre.map (tc.ccInvocation sourceDir objectDir ccFlags none)
                ++ [tc.ccInvocation sourceDir objectDir ccFlags (some err) f] })) := by
  constructor
  · intro hok
    have h := ccompileLoop_all_ok tc ex sourceDir objectDir ccFlags ccFiles [] w hok
    simpa [Toolchain.CCompile] using h
  · intro pre f post err hsplit hpre hf
    subst hsplit
    exact ccompileLoop_first_failure tc ex sourceDir objectDir ccFlags pre f post [] err w hpre hf

/-- C8 in the example of the specification: of the three sources `a.c`, `b.c`
and `c.c` the compiler fails on the second; it is called for `a.c` and `b.c`
only and the error of `b.c` is returned. -/
theorem CCompile_fail_fast_witness :
    exampleToolchain.CCompile (failingExecutor "b.c".toList) "src".toList "obj".toList
        ["a.c".toList, "b.c".toList, "c.c".toList] [] { state := (), log := [] }
      = (Except.error "b.c".toList,
          { state := (),
            log := [exampleToolchain.ccInvocation "src".toList "obj".toList [] none "a.c".toList,
              exampleToolchain.ccInvocation "src".toList "obj".toList [] (some "b.c".toList)
                "b.c".toList] }) :=
  (CCompile_fail_fast exampleToolchain (failingExecutor "b.c".toList) "src".toList "obj".toList
    ["a.c".toList, "b.c".toList, "c.c".toList] [] { state := (), log := [] }).2
    ["a.c".toList] "b.c".toList ["c.c".toList] "b.c".toList rfl
    (fun a x b h => by
      cases a with
      | nil =>
        simp only [List.nil_append, List.cons.injEq] at h
        obtain ⟨rfl, -⟩ := h
        rfl
      | cons y a2 => simp at h)
    rfl

/-! ## The C compile stage: object file names (C9) -/

theorem splitElements_ne_nil (s : GoString) : filepath.splitElements s ≠ [] := by
  cases s with
  | nil => simp [filepath.splitElements]
  | cons c cs =>
    simp only [filepath.splitElements]
    split
    · simp
    · split <;> simp

theorem splitElements_append_sep (a b : GoString) :
    filepath.splitElements (a ++ filepath.Separator :: b)
      = filepath.splitElements a ++ filepath.splitElements b := by
  induction a with
  | nil => simp [filepath.splitElements]
  | cons c cs ih =>
    by_cases hc : c = filepath.Separator
    · simp [filepath.splitElements, hc, ih]
    · simp only [List.cons_append, filepath.splitElements, hc, if_false]
      have ih2 : filepath.splitElements (cs.append (filepath.Separator :: b))
          = filepath.splitElements cs ++ filepath.splitElements b := ih
      rw [ih2]
      cases hsp : filepath.splitElements cs with
      | nil => exact absurd hsp (splitElements_ne_nil cs)
      | cons e es => simp

theorem splitElements_of_no_sep (n : GoString) (h : filepath.Separator ∉ n) :
    filepath.splitElements n = [n] := by
  induction n with
  | nil => simp [filepath.splitElements]
  | cons c cs ih =>
    have hc : c ≠ filepath.Separator := fun e => h (by simp [e])
    have hcs : filepath.Separator ∉ cs := fun e => h (List.mem_cons_of_mem _ e)
    simp [filepath.splitElements, hc, ih hcs]

theorem cleanStep_plain (rooted : Bool) (kept : List GoString) (e : GoString)
    (h : filepath.IsPlainElement e) : filepath.cleanStep rooted kept e = e :: kept := by
  obtain ⟨-, h1, h2, h3⟩ := h
  simp [filepath.cleanStep, h1, h2, h3]

theorem strings.Join_snoc (sep : GoString) (l : List GoString) (n : GoString) :
    strings.Join (l ++ [n]) sep = (if l = [] then [] else strings.Join l sep ++ sep) ++ n := by
  induction l with
  | nil => simp [strings.Join, List.intercalate]
  | cons a l ih =>
    cases l with
    | nil => simp [strings.Join, List.intercalate]
    | cons b l =>
      simp only [strings.Join, List.intercalate] at ih ⊢
      simp at ih ⊢
      simp [ih]

theorem filepath.Clean_plain (n : GoString) (h : filepath.IsPlainElement n) : filepath.Clean n = n := by
  have hsplit := splitElements_of_no_sep n h.1
  have hne : n ≠ [] := h.2.1
  have hroot : (n.head? = some filepath.Separator) = False := by
    cases n with
    | nil => exact absurd rfl hne
    | cons c cs =>
      have hc : c ≠ filepath.Separator := fun e => h.1 (by simp [e])
      simp [hc]
  simp [filepath.Clean, hne, hsplit, hroot, cleanStep_plain _ _ _ h, strings.Join,
    List.intercalate]

theorem filepath.Join_plain (dir n : GoString) (h : filepath.IsPlainElement n) :
    filepath.Join [dir, n] = filepath.joinPrefix dir ++ n := by
  have hne : n ≠ [] := h.2.1
  by_cases hdir : dir = []
  · subst hdir
    simp [filepath.Join, filepath.joinPrefix, hne, strings.Join, List.intercalate,
      filepath.Clean_plain n h]
  · have hpath : strings.Join [dir, n] [filepath.Separator] = dir ++ filepath.Separator :: n := by
      simp [strings.Join, List.intercalate]
    have hhead : (dir ++ filepath.Separator :: n).head? = dir.head? := by
      cases dir with
      | nil => exact absurd rfl hdir
      | cons c cs => simp
    have hpne : dir ++ filepath.Separator :: n ≠ [] := by simp
    simp only [filepath.Join, List.dropWhile, hdir, decide_False, hpath, filepath.Clean, hpne,
      if_false, hhead, filepath.joinPrefix, splitElements_append_sep,
      splitElements_of_no_sep n h.1, List.foldl_append, List.foldl_cons, List.foldl_nil,
      cleanStep_plain _ _ _ h, List.reverse_cons, strings.Join_snoc]
    split <;> simp

theorem filepath.Base_no_sep (path : GoString) :
    filepath.Base path = [filepath.Separator] ∨ filepath.Separator ∉ filepath.Base path := by
  unfold filepath.Base
  split
  · right; simp [filepath.Separator]
  · simp only
    split
    · left; rfl
    · right
      simp only [filepath.lastElement, List.mem_reverse]
      intro hmem
      have := List.mem_takeWhile_imp hmem
      simp at this

theorem strings.TrimSuffix_subset (s suf : GoString) (c : Char) (h : c ∈ strings.TrimSuffix s suf) :
    c ∈ s := by
  unfold strings.TrimSuffix at h
  split at h
  · exact List.mem_of_mem_take h
  · exact h

theorem baseObjFile_plain (ccFile : GoString) (h : filepath.Base ccFile ≠ [filepath.Separator]) :
    filepath.IsPlainElement (Toolchain.baseObjFile ccFile) := by
  have hb : filepath.Separator ∉ filepath.Base ccFile := by
    rcases filepath.Base_no_sep ccFile with h1 | h1
    · exact absurd h1 h
    · exact h1
  have hlast : (Toolchain.baseObjFile ccFile).getLast? = some 'o' := by
    simp [Toolchain.baseObjFile]
  refine ⟨?_, ?_, ?_, ?_⟩
  · intro hmem
    simp only [Toolchain.baseObjFile, List.mem_append] at hmem
    rcases hmem with hmem | hmem
    · exact hb (strings.TrimSuffix_subset _ _ _ hmem)
    · simp [filepath.Separator] at hmem
  · intro e; rw [e] at hlast; simp at hlast
  · intro e; rw [e] at hlast; simp at hlast
  · intro e; rw [e] at hlast; simp at hlast

/-- C9, as the code has it: for every object directory and every list of
sources whose object base names (the base name of the source with its
extension replaced by `.o`) are pairwise distinct, none of the sources being a
path of separators only, the object files `CCompile` derives are pairwise
distinct. -/
theorem objFile_nodup_of_baseObjFile_nodup (objectDir : GoString) (ccFiles : List GoString)
    (hbase : (ccFiles.map Toolchain.baseObjFile).Nodup)
    (hroot : ∀ f ∈ ccFiles, filepath.Base f ≠ "/".toList) :
    (ccFiles.map (Toolchain.objFile objectDir)).Nodup := by
  have hmap : ccFiles.map (Toolchain.objFile objectDir)
      = (ccFiles.map Toolchain.baseObjFile).map (fun n => filepath.joinPrefix objectDir ++ n) := by
    rw [List.map_map]
    apply List.map_congr_left
    intro f hf
    exact filepath.Join_plain objectDir _ (baseObjFile_plain f (hroot f hf))
  rw [hmap]
  exact List.Nodup.map (fun a b hab => List.append_cancel_left hab) hbase

/-- C9 at the sources `a/foo.c` and `b/bar.c` and the object directory `obj`. -/
theorem objFile_nodup_of_baseObjFile_nodup_witness :
    (["a/foo.c".toList, "b/bar.c".toList].map (Toolchain.objFile "obj".toList)).Nodup :=
  objFile_nodup_of_baseObjFile_nodup "obj".toList ["a/foo.c".toList, "b/bar.c".toList]
    (by decide) (by decide)

/-- C9 as stated fails for two distinct sources of the same base name: `a/foo.c`
and `b/foo.c` are both compiled to `obj/foo.o`. -/
theorem objFile_same_base_collides :
    "a/foo.c".toList ≠ "b/foo.c".toList ∧
    Toolchain.objFile "obj".toList "a/foo.c".toList = "obj/foo.o".toList ∧
    Toolchain.objFile "obj".toList "b/foo.c".toList = "obj/foo.o".toList := by
  decide

end PleaseGo
